import Mathlib

/-!
Shallow embedding of the wordlist-generation engine (`generator.py`) of the
password-audit project, together with theorems settling the specification
claims about it.  Python sets are modelled as `Finset String`, `list(set(x))`
as `List.dedup`, and the optional NLTK stemmer as an `Option (String → String)`
parameter (`none` models `_HAS_NLTK = False`).
-/

namespace PwGen

/-- Python `str.lower()` restricted to the ASCII mapping used by the engine. -/
def pyLower (s : String) : String := ⟨s.data.map Char.toLower⟩

/-- Python `str.upper()` restricted to the ASCII mapping used by the engine. -/
def pyUpper (s : String) : String := ⟨s.data.map Char.toUpper⟩

/-- Python `str.capitalize()`: first character uppercased, the rest lowercased. -/
def pyCapitalize (s : String) : String :=
  match s.data with
  | [] => ""
  | c :: cs => ⟨c.toUpper :: cs.map Char.toLower⟩

/-- Python `str.strip()`: drop leading and trailing whitespace. -/
def pyStrip (s : String) : String :=
  ⟨((s.data.dropWhile (fun c => c.isWhitespace)).reverse.dropWhile
      (fun c => c.isWhitespace)).reverse⟩

/-- Python `str.isalpha()`: non-empty and every character alphabetic. -/
def pyIsalpha (s : String) : Bool := !s.data.isEmpty && s.data.all (fun c => c.isAlpha)

/-- Python `str.isdigit()` on ASCII data: non-empty and every character a digit. -/
def pyIsdigit (s : String) : Bool := !s.data.isEmpty && s.data.all (fun c => c.isDigit)

/-- Python `str.isspace()`: non-empty and every character whitespace. -/
def pyIsspace (s : String) : Bool := !s.data.isEmpty && s.data.all (fun c => c.isWhitespace)

/-- The `LEET_MAP` dictionary of `generator.py`. -/
def LEET_MAP (c : Char) : Option (List String) :=
  if c = 'a' then some ["a", "@", "4"]
  else if c = 'e' then some ["e", "3"]
  else if c = 'i' then some ["i", "1", "!"]
  else if c = 'o' then some ["o", "0"]
  else if c = 's' then some ["s", "$", "5"]
  else if c = 't' then some ["t", "7"]
  else none

/-- `LEET_MAP.get(ch, [ch])` of `generator.py`. -/
def leetOptions (c : Char) : List String := (LEET_MAP c).getD [⟨[c]⟩]

/-- One iteration of the expansion loop of `apply_leet`: every accumulated
prefix is extended with every substitution option of the current character. -/
def leetStep (variations : List String) (opts : List String) : List String :=
  variations.flatMap (fun p => opts.map (fun op => p ++ op))

/-- The full expansion loop of `apply_leet` over the characters of the word. -/
def leetExpand : List Char → List String → List String
  | [], variations => variations
  | ch :: cs, variations => leetExpand cs (leetStep variations (leetOptions ch))

/-- `apply_leet` of `generator.py`; `list(set(variations))` is modelled by
`List.dedup`. -/
def apply_leet (word : String) : List String :=
  if word = "" then []
  else (leetExpand (pyLower word).data [""]).dedup

/-- The fixed symbol list of `apply_patterns`. -/
def symbols : List String := ["!", "@", "#", "$", "_", "."]

/-- The additions performed by one iteration of the outer loop of
`apply_patterns` for a single (non-empty) word. -/
def patternsFor (word : String) (years : List String) : Finset String :=
  insert word
    ((((years.filter (fun y => y ≠ "")).flatMap
        (fun y => [word ++ y, word ++ "_" ++ y, y ++ word])).toFinset)
      ∪ ((symbols.flatMap (fun sym =>
          [word ++ sym, sym ++ word, word ++ (sym ++ sym)]
            ++ (if years.isEmpty then []
                else years.flatMap (fun y => [word ++ sym ++ y, sym ++ word ++ y])))).toFinset))

/-- `apply_patterns` of `generator.py`; the accumulating Python `set` is the
union of the per-word contributions (empty words are skipped). -/
def apply_patterns (words : List String) (years : List String) : Finset String :=
  (words.filter (fun w => w ≠ "")).foldr (fun w acc => patternsFor w years ∪ acc) ∅

/-- `_stem_word` of `generator.py`.  The stemming capability (`_HAS_NLTK`
plus `PorterStemmer`) is modelled as an optional function; the `{word}` set
with a conditional `add` is modelled with `List.insert`. -/
def _stem_word (stem? : Option (String → String)) (word : String) : List String :=
  match stem? with
  | none => [word]
  | some stemmer =>
    if pyIsalpha word then
      let st := stemmer (pyLower word)
      if st ≠ "" ∧ st ≠ pyLower word then [word].insert st else [word]
    else [word]

/-- The cleaned form of one raw seed: strip surrounding whitespace, then
remove every character that is not an ASCII letter or digit
(`re.sub(r"[^a-zA-Z0-9]", "", seed.strip())`). -/
def cleanedToken (seed : String) : String :=
  ⟨(pyStrip seed).data.filter (fun c => c.isAlphanum)⟩

/-- `_clean_seeds` of `generator.py`: split the seeds into cleaned word
tokens and cleaned number tokens, preserving order of first appearance. -/
def _clean_seeds : List String → List String × List String
  | [] => ([], [])
  | seed :: rest =>
    let r := _clean_seeds rest
    if pyStrip seed = "" then r
    else
      let cleaned := cleanedToken seed
      if cleaned = "" then r
      else if pyIsdigit cleaned then (r.1, cleaned :: r.2)
      else (cleaned :: r.1, r.2)

/-- The `options` dict of `generate_wordlist`: an optional `length` entry and
an optional (unused) `rules` entry. -/
structure Options where
  length : Option Int
  rules : Option String

/-- `int(options.get("length", 12) or 12)`: a missing `length` gives 12, and
a supplied `0` is falsy in Python, so it also gives 12. -/
def maxLenOf (o : Options) : Int :=
  match o.length with
  | none => 12
  | some v => if v = 0 then 12 else v

/-- The `length` value "supplied in options, default 12", as the claims read
it (no special treatment of `0`). -/
def specLenOf (o : Options) : Int := o.length.getD 12

/-- The per-word body of the seed-processing loop of `generate_wordlist`:
for every base returned by `_stem_word`, the leet variants plus the three
case variants. -/
def variantsList (stem? : Option (String → String)) (w : String) : List String :=
  (_stem_word stem? w).flatMap
    (fun base => apply_leet base ++ [pyLower base, pyCapitalize base, pyUpper base])

/-- The deduplicated `word_variations` list of `generate_wordlist`. -/
def wordVariationsOf (stem? : Option (String → String)) (clean_words : List String) :
    List String :=
  (clean_words.flatMap (fun w => variantsList stem? w)).dedup

/-- The "simple word+number combos" loop of `generate_wordlist`. -/
def pairCombos (word_variations : List String) (clean_numbers : List String) :
    Finset String :=
  (word_variations.flatMap
    (fun w => clean_numbers.flatMap (fun num => [w ++ num, num ++ w]))).toFinset

/-- The contents of the `final` set of `generate_wordlist` just before the
generic-suffix loop: pair combos, patterned combos, raw numbers, raw words. -/
def finalSet (stem? : Option (String → String))
    (clean_words clean_numbers : List String) : Finset String :=
  let wv := wordVariationsOf stem? clean_words
  pairCombos wv clean_numbers ∪ apply_patterns wv clean_numbers
    ∪ clean_numbers.toFinset ∪ wv.toFinset

/-- The `common_suffixes` list of `generate_wordlist`. -/
def common_suffixes : List String := ["123", "!", "!", "99", "007"]

/-- The generic-suffix loop of `generate_wordlist`: iterate over a snapshot
of `final` and add each length-bounded `w + suf`. -/
def addSuffixes (max_len : Int) (final : Finset String) : Finset String :=
  final ∪ final.biUnion
    (fun w => ((common_suffixes.map (fun suf => w ++ suf)).filter
        (fun cand => (cand.length : Int) ≤ max_len)).toFinset)

/-- `generate_wordlist` of `generator.py`: clean the seeds, expand variants,
apply patterns and combos, add generic suffixes, filter by length and
whitespace, and return the sorted deduplicated result. -/
def generate_wordlist (stem? : Option (String → String)) (seeds : List String)
    (options : Options) : List String :=
  let max_len := maxLenOf options
  let cleaned := _clean_seeds seeds
  let filtered := (addSuffixes max_len (finalSet stem? cleaned.1 cleaned.2)).filter
    (fun w => 3 ≤ w.length ∧ (w.length : Int) ≤ max_len ∧ pyIsspace w = false)
  filtered.sort (fun a b => a ≤ b)

/-! ### Claim-side definitions -/

/-- The per-character option count stated by the spec: 3 for `a`, 2 for `e`,
3 for `i`, 2 for `o`, 3 for `s`, 2 for `t`, and 1 for anything else. -/
def leetFactor (c : Char) : Nat :=
  if c = 'a' then 3
  else if c = 'e' then 2
  else if c = 'i' then 3
  else if c = 'o' then 2
  else if c = 's' then 3
  else if c = 't' then 2
  else 1

/-- The output set of `apply_patterns` as the spec describes it: the union
over each variant `v` of `\x7bv\x7d`, the year decorations, the symbol
decorations, and (when years exist) the symbol-year decorations. -/
def specPatterns (words : List String) (years : List String) : Finset String :=
  words.toFinset.biUnion (fun v =>
    insert v
      (((years.toFinset.biUnion (fun n => {v ++ n, v ++ "_" ++ n, n ++ v}))
        ∪ (symbols.toFinset.biUnion (fun s => {v ++ s, s ++ v, v ++ s ++ s})))
        ∪ (if years = [] then ∅
            else symbols.toFinset.biUnion (fun s =>
              years.toFinset.biUnion (fun n => {v ++ s ++ n, s ++ v ++ n})))))

/-- A character the engine can emit: an ASCII letter or digit, or one of the
six decoration symbols. -/
def goodChar (c : Char) : Bool :=
  c.isAlphanum || c = '!' || c = '@' || c = '#' || c = '$' || c = '_' || c = '.'

/-- A string all of whose characters are `goodChar`. -/
def goodStr (s : String) : Bool := s.data.all goodChar

/-! ### Character-level lemmas -/

lemma char_isAlphanum_toNat {c : Char} (h : c.isAlphanum = true) :
    (48 ≤ c.toNat ∧ c.toNat ≤ 57) ∨ (65 ≤ c.toNat ∧ c.toNat ≤ 90) ∨
      (97 ≤ c.toNat ∧ c.toNat ≤ 122) := by
  simp only [Char.isAlphanum, Char.isAlpha, Char.isUpper, Char.isLower, Char.isDigit,
    ge_iff_le, Bool.or_eq_true, Bool.and_eq_true, decide_eq_true_eq, UInt32.le_def,
    BitVec.le_def, Char.toNat, UInt32.toNat, UInt32.toBitVec_ofNat, BitVec.toNat_ofNat] at h ⊢
  omega

lemma char_alphanum_cases (P : Char → Prop)
    (hP : ∀ n : Nat, 48 ≤ n → n ≤ 122 → ((Char.ofNat n).isAlphanum = true → P (Char.ofNat n)))
    {c : Char} (h : c.isAlphanum = true) : P c := by
  have hb := char_isAlphanum_toNat h
  obtain ⟨n, h48, h122, rfl⟩ : ∃ n, 48 ≤ n ∧ n ≤ 122 ∧ c = Char.ofNat n :=
    ⟨c.toNat, by omega, by omega, (Char.ofNat_toNat c).symm⟩
  exact hP n h48 h122 h

lemma char_isAlphanum_toLower {c : Char} (h : c.isAlphanum = true) :
    c.toLower.isAlphanum = true := by
  refine char_alphanum_cases (fun d => d.toLower.isAlphanum = true) ?_ h
  intro n h1 h2
  interval_cases n <;> decide

lemma char_isAlphanum_toUpper {c : Char} (h : c.isAlphanum = true) :
    c.toUpper.isAlphanum = true := by
  refine char_alphanum_cases (fun d => d.toUpper.isAlphanum = true) ?_ h
  intro n h1 h2
  interval_cases n <;> decide

lemma char_alphanum_not_ws {c : Char} (h : c.isAlphanum = true) :
    c.isWhitespace = false := by
  refine char_alphanum_cases (fun d => d.isWhitespace = false) ?_ h
  intro n h1 h2
  interval_cases n <;> decide

lemma char_digit_toLower {c : Char} (h : c.isDigit = true) : c.toLower = c := by
  have hb : 48 ≤ c.toNat ∧ c.toNat ≤ 57 := by
    simp only [Char.isDigit, ge_iff_le, Bool.and_eq_true, decide_eq_true_eq, UInt32.le_def,
      BitVec.le_def, Char.toNat, UInt32.toNat, UInt32.toBitVec_ofNat, BitVec.toNat_ofNat] at h ⊢
    omega
  obtain ⟨n, h48, h57, rfl⟩ : ∃ n, 48 ≤ n ∧ n ≤ 57 ∧ c = Char.ofNat n :=
    ⟨c.toNat, by omega, by omega, (Char.ofNat_toNat c).symm⟩
  interval_cases n <;> decide

lemma char_good_of_alphanum {c : Char} (h : c.isAlphanum = true) : goodChar c = true := by
  simp [goodChar, h]

lemma char_good_toLower {c : Char} (h : goodChar c = true) : goodChar c.toLower = true := by
  simp only [goodChar, Bool.or_eq_true, decide_eq_true_eq] at h
  rcases h with ((((((h | rfl) | rfl) | rfl) | rfl) | rfl) | rfl)
  · exact char_good_of_alphanum (char_isAlphanum_toLower h)
  all_goals decide

lemma char_good_toUpper {c : Char} (h : goodChar c = true) : goodChar c.toUpper = true := by
  simp only [goodChar, Bool.or_eq_true, decide_eq_true_eq] at h
  rcases h with ((((((h | rfl) | rfl) | rfl) | rfl) | rfl) | rfl)
  · exact char_good_of_alphanum (char_isAlphanum_toUpper h)
  all_goals decide

lemma char_good_not_ws {c : Char} (h : goodChar c = true) : c.isWhitespace = false := by
  simp only [goodChar, Bool.or_eq_true, decide_eq_true_eq] at h
  rcases h with ((((((h | rfl) | rfl) | rfl) | rfl) | rfl) | rfl)
  · exact char_alphanum_not_ws h
  all_goals decide

/-! ### String-level lemmas -/

lemma string_data_mk (l : List Char) : (String.mk l).data = l := rfl

lemma string_length_eq_data (s : String) : s.length = s.data.length := by
  cases s
  rfl

lemma pyLower_length (s : String) : (pyLower s).length = s.length := by
  unfold pyLower
  rw [string_length_eq_data, string_data_mk, List.length_map, string_length_eq_data]

lemma goodStr_append (a b : String) : goodStr (a ++ b) = (goodStr a && goodStr b) := by
  simp [goodStr, String.data_append]

lemma goodStr_of_alphanum {s : String} (h : s.data.all (fun c => c.isAlphanum) = true) :
    goodStr s = true := by
  simp only [goodStr, List.all_eq_true] at h ⊢
  exact fun c hc => char_good_of_alphanum (h c hc)

lemma goodStr_pyLower {s : String} (h : goodStr s = true) : goodStr (pyLower s) = true := by
  simp only [goodStr, pyLower, string_data_mk, List.all_eq_true, List.mem_map] at h ⊢
  rintro c ⟨d, hd, rfl⟩
  exact char_good_toLower (h d hd)

lemma goodStr_pyUpper {s : String} (h : goodStr s = true) : goodStr (pyUpper s) = true := by
  simp only [goodStr, pyUpper, string_data_mk, List.all_eq_true, List.mem_map] at h ⊢
  rintro c ⟨d, hd, rfl⟩
  exact char_good_toUpper (h d hd)

lemma goodStr_pyCapitalize {s : String} (h : goodStr s = true) :
    goodStr (pyCapitalize s) = true := by
  simp only [goodStr, List.all_eq_true] at h
  unfold pyCapitalize
  cases hs : s.data with
  | nil => decide
  | cons c cs =>
    simp only [goodStr, string_data_mk, List.all_eq_true]
    intro d hd
    rcases List.mem_cons.mp hd with rfl | hd'
    · exact char_good_toUpper (h c (by rw [hs]; exact List.mem_cons_self c cs))
    · obtain ⟨e, he, rfl⟩ := List.mem_map.mp hd'
      exact char_good_toLower (h e (by rw [hs]; exact List.mem_cons_of_mem c he))

lemma pyIsspace_eq_false_of_good {s : String} (h : goodStr s = true) :
    pyIsspace s = false := by
  unfold pyIsspace
  cases hs : s.data with
  | nil => simp [hs]
  | cons c cs =>
    simp only [goodStr, List.all_eq_true, hs] at h
    simp only [hs, List.all_cons, Bool.and_eq_false_imp]
    simp [char_good_not_ws (h c (by simp))]

lemma string_append_left_cancel {p a b : String} (h : p ++ a = p ++ b) : a = b := by
  apply String.ext
  have hd : p.data ++ a.data = p.data ++ b.data := by
    rw [← String.data_append, ← String.data_append, h]
  exact List.append_cancel_left hd

lemma string_append_inj_of_len {a b c d : String} (h : a ++ c = b ++ d)
    (hl : a.length = b.length) : a = b ∧ c = d := by
  have hd : a.data ++ c.data = b.data ++ d.data := by
    rw [← String.data_append, ← String.data_append, h]
  have hdl : a.data.length = b.data.length := by
    rw [← string_length_eq_data, ← string_length_eq_data, hl]
  obtain ⟨h1, h2⟩ := List.append_inj hd hdl
  exact ⟨String.ext h1, String.ext h2⟩

/-! ### Leet-table lemmas -/

lemma leetOptions_len1 (c : Char) : ∀ s ∈ leetOptions c, s.length = 1 := by
  by_cases h1 : c = 'a'
  · subst h1; decide
  by_cases h2 : c = 'e'
  · subst h2; decide
  by_cases h3 : c = 'i'
  · subst h3; decide
  by_cases h4 : c = 'o'
  · subst h4; decide
  by_cases h5 : c = 's'
  · subst h5; decide
  by_cases h6 : c = 't'
  · subst h6; decide
  simp only [leetOptions, LEET_MAP, h1, h2, h3, h4, h5, h6, if_false, Option.getD_none]
  intro s hs
  rw [List.mem_singleton.mp hs]
  rfl

lemma leetOptions_nodup (c : Char) : (leetOptions c).Nodup := by
  by_cases h1 : c = 'a'
  · subst h1; decide
  by_cases h2 : c = 'e'
  · subst h2; decide
  by_cases h3 : c = 'i'
  · subst h3; decide
  by_cases h4 : c = 'o'
  · subst h4; decide
  by_cases h5 : c = 's'
  · subst h5; decide
  by_cases h6 : c = 't'
  · subst h6; decide
  simp [leetOptions, LEET_MAP, h1, h2, h3, h4, h5, h6]

lemma leetOptions_factor (c : Char) : (leetOptions c).length = leetFactor c := by
  by_cases h1 : c = 'a'
  · subst h1; decide
  by_cases h2 : c = 'e'
  · subst h2; decide
  by_cases h3 : c = 'i'
  · subst h3; decide
  by_cases h4 : c = 'o'
  · subst h4; decide
  by_cases h5 : c = 's'
  · subst h5; decide
  by_cases h6 : c = 't'
  · subst h6; decide
  simp [leetOptions, LEET_MAP, leetFactor, h1, h2, h3, h4, h5, h6]

lemma leetOptions_good {c : Char} (hc : goodChar c = true) :
    ∀ s ∈ leetOptions c, goodStr s = true := by
  by_cases h1 : c = 'a'
  · subst h1; decide
  by_cases h2 : c = 'e'
  · subst h2; decide
  by_cases h3 : c = 'i'
  · subst h3; decide
  by_cases h4 : c = 'o'
  · subst h4; decide
  by_cases h5 : c = 's'
  · subst h5; decide
  by_cases h6 : c = 't'
  · subst h6; decide
  simp only [leetOptions, LEET_MAP, h1, h2, h3, h4, h5, h6, if_false, Option.getD_none]
  intro s hs
  rw [List.mem_singleton.mp hs]
  simp [goodStr, hc]

/-! ### The cartesian-expansion invariant of `apply_leet` -/

lemma mem_leetStep {l opts : List String} {x : String} :
    x ∈ leetStep l opts ↔ ∃ p ∈ l, ∃ op ∈ opts, x = p ++ op := by
  simp only [leetStep, List.mem_flatMap, List.mem_map]
  constructor
  · rintro ⟨p, hp, op, hop, rfl⟩
    exact ⟨p, hp, op, hop, rfl⟩
  · rintro ⟨p, hp, op, hop, rfl⟩
    exact ⟨p, hp, op, hop, rfl⟩

lemma leetExpand_spec (cs : List Char) :
    ∀ (l : List String) (k : Nat), (∀ s ∈ l, s.length = k) → l.Nodup →
      (∀ s ∈ leetExpand cs l, s.length = k + cs.length) ∧ (leetExpand cs l).Nodup ∧
        (leetExpand cs l).length = l.length * (cs.map (fun c => (leetOptions c).length)).prod := by
  induction cs with
  | nil =>
    intro l k h1 h2
    simp only [leetExpand]
    exact ⟨by simpa using h1, h2, by simp⟩
  | cons ch cs ih =>
    intro l k h1 h2
    simp only [leetExpand]
    have hstep1 : ∀ s ∈ leetStep l (leetOptions ch), s.length = k + 1 := by
      intro s hs
      obtain ⟨p, hp, op, hop, rfl⟩ := mem_leetStep.mp hs
      rw [String.length_append, h1 p hp, leetOptions_len1 ch op hop]
    have hstep2 : (leetStep l (leetOptions ch)).Nodup := by
      unfold leetStep
      rw [List.nodup_flatMap]
      constructor
      · intro p _
        exact (leetOptions_nodup ch).map
          (fun a b hab => string_append_left_cancel hab)
      · refine List.Pairwise.imp_of_mem ?_ h2
        intro a b ha hb hab
        intro x hxa hxb
        obtain ⟨o1, ho1, rfl⟩ := List.mem_map.mp hxa
        obtain ⟨o2, ho2, heq⟩ := List.mem_map.mp hxb
        have hlen : b.length = a.length := by rw [h1 a ha, h1 b hb]
        exact hab ((string_append_inj_of_len heq hlen).1).symm
    have hrec := ih (leetStep l (leetOptions ch)) (k + 1) hstep1 hstep2
    refine ⟨?_, hrec.2.1, ?_⟩
    · intro s hs
      rw [hrec.1 s hs, List.length_cons]
      omega
    · rw [hrec.2.2, List.map_cons, List.prod_cons]
      have hlen : (leetStep l (leetOptions ch)).length = l.length * (leetOptions ch).length := by
        rw [leetStep, List.length_flatMap]
        simp only [Function.comp_def, List.length_map, List.map_const', List.sum_replicate,
          smul_eq_mul]
      rw [hlen]
      ring

lemma apply_leet_count {word : String} (h : word ≠ "") :
    (apply_leet word).length =
      ((pyLower word).data.map (fun c => (leetOptions c).length)).prod := by
  unfold apply_leet
  rw [if_neg h]
  have h1 : ∀ s ∈ ([""] : List String), s.length = 0 := by
    intro s hs
    rw [List.mem_singleton.mp hs]
    rfl
  have hspec := leetExpand_spec (pyLower word).data [""] 0 h1 (List.nodup_singleton _)
  rw [List.dedup_eq_self.mpr hspec.2.1, hspec.2.2, List.length_singleton, one_mul]

lemma leetExpand_good (cs : List Char) :
    ∀ l, (∀ c ∈ cs, goodChar c = true) → (∀ s ∈ l, goodStr s = true) →
      ∀ s ∈ leetExpand cs l, goodStr s = true := by
  induction cs with
  | nil =>
    intro l _ hl
    simpa [leetExpand] using hl
  | cons ch cs ih =>
    intro l hcs hl
    simp only [leetExpand]
    refine ih _ (fun c hc => hcs c (List.mem_cons_of_mem ch hc)) ?_
    intro s hs
    obtain ⟨p, hp, op, hop, rfl⟩ := mem_leetStep.mp hs
    rw [goodStr_append]
    rw [hl p hp, leetOptions_good (hcs ch (List.mem_cons_self ch cs)) op hop]
    rfl

lemma apply_leet_good {word x : String} (hw : goodStr word = true)
    (hx : x ∈ apply_leet word) : goodStr x = true := by
  unfold apply_leet at hx
  by_cases h : word = ""
  · rw [if_pos h] at hx
    cases hx
  · rw [if_neg h] at hx
    refine leetExpand_good (pyLower word).data [""] ?_ ?_ x (List.mem_dedup.mp hx)
    · have := goodStr_pyLower hw
      simpa [goodStr, List.all_eq_true] using this
    · intro s hs
      rw [List.mem_singleton.mp hs]
      rfl

/-! ### Membership lemmas for the pipeline stages -/

lemma mem_foldr_union {f : String → Finset String} :
    ∀ {l : List String} {x : String},
      x ∈ l.foldr (fun w acc => f w ∪ acc) ∅ ↔ ∃ w ∈ l, x ∈ f w := by
  intro l x
  induction l with
  | nil => simp
  | cons a l ih => simp [ih]

lemma mem_apply_patterns {words years : List String} {x : String} :
    x ∈ apply_patterns words years ↔ ∃ w ∈ words, w ≠ "" ∧ x ∈ patternsFor w years := by
  unfold apply_patterns
  rw [mem_foldr_union]
  constructor
  · rintro ⟨w, hw, hx⟩
    have := List.mem_filter.mp hw
    exact ⟨w, this.1, by simpa using this.2, hx⟩
  · rintro ⟨w, hw, hne, hx⟩
    exact ⟨w, List.mem_filter.mpr ⟨hw, by simpa using hne⟩, hx⟩

lemma word_mem_stem_word (stem? : Option (String → String)) (word : String) :
    word ∈ _stem_word stem? word := by
  cases stem? with
  | none => exact List.mem_singleton_self word
  | some f =>
    simp only [_stem_word]
    by_cases h1 : pyIsalpha word
    · rw [if_pos h1]
      by_cases h2 : f (pyLower word) ≠ "" ∧ f (pyLower word) ≠ pyLower word
      · rw [if_pos h2]
        exact List.mem_insert_iff.mpr (Or.inr (List.mem_singleton_self word))
      · rw [if_neg h2]
        exact List.mem_singleton_self word
    · rw [if_neg h1]
      exact List.mem_singleton_self word

lemma mem_stem_word_good {stem? : Option (String → String)} {word base : String}
    (hstem : ∀ f, stem? = some f → ∀ w, goodStr (f w) = true)
    (hw : goodStr word = true) (hb : base ∈ _stem_word stem? word) : goodStr base = true := by
  cases stem? with
  | none => rwa [List.mem_singleton.mp hb]
  | some f =>
    simp only [_stem_word] at hb
    by_cases h1 : pyIsalpha word
    · rw [if_pos h1] at hb
      by_cases h2 : f (pyLower word) ≠ "" ∧ f (pyLower word) ≠ pyLower word
      · rw [if_pos h2] at hb
        rcases List.mem_insert_iff.mp hb with rfl | hb'
        · exact hstem f rfl (pyLower word)
        · rwa [List.mem_singleton.mp hb']
      · rw [if_neg h2] at hb
        rwa [List.mem_singleton.mp hb]
    · rw [if_neg h1] at hb
      rwa [List.mem_singleton.mp hb]

lemma mem_variantsList {stem? : Option (String → String)} {w x : String} :
    x ∈ variantsList stem? w ↔ ∃ base ∈ _stem_word stem? w,
      (x ∈ apply_leet base ∨ x = pyLower base ∨ x = pyCapitalize base ∨ x = pyUpper base) := by
  unfold variantsList
  rw [List.mem_flatMap]
  refine exists_congr fun base => and_congr_right fun _ => ?_
  simp [List.mem_append]

lemma mem_wordVariationsOf {stem? : Option (String → String)} {cw : List String} {x : String} :
    x ∈ wordVariationsOf stem? cw ↔ ∃ w ∈ cw, x ∈ variantsList stem? w := by
  unfold wordVariationsOf
  rw [List.mem_dedup, List.mem_flatMap]

lemma mem_pairCombos {wv nums : List String} {x : String} :
    x ∈ pairCombos wv nums ↔
      ∃ w ∈ wv, ∃ num ∈ nums, (x = w ++ num ∨ x = num ++ w) := by
  unfold pairCombos
  rw [List.mem_toFinset, List.mem_flatMap]
  refine exists_congr fun w => and_congr_right fun _ => ?_
  rw [List.mem_flatMap]
  refine exists_congr fun num => and_congr_right fun _ => ?_
  simp [eq_comm]

lemma mem_addSuffixes {m : Int} {fin : Finset String} {x : String} :
    x ∈ addSuffixes m fin ↔ x ∈ fin ∨
      ∃ w ∈ fin, ∃ suf ∈ common_suffixes, x = w ++ suf ∧ (x.length : Int) ≤ m := by
  unfold addSuffixes
  rw [Finset.mem_union]
  refine or_congr Iff.rfl ?_
  rw [Finset.mem_biUnion]
  refine exists_congr fun w => and_congr_right fun _ => ?_
  rw [List.mem_toFinset, List.mem_filter, List.mem_map]
  constructor
  · rintro ⟨⟨suf, hsuf, rfl⟩, hlen⟩
    exact ⟨suf, hsuf, rfl, by simpa using hlen⟩
  · rintro ⟨suf, hsuf, rfl, hlen⟩
    exact ⟨⟨suf, hsuf, rfl⟩, by simpa using hlen⟩

lemma mem_finalSet {stem? : Option (String → String)} {cw cn : List String} {x : String} :
    x ∈ finalSet stem? cw cn ↔
      x ∈ pairCombos (wordVariationsOf stem? cw) cn
        ∨ x ∈ apply_patterns (wordVariationsOf stem? cw) cn
        ∨ x ∈ cn ∨ x ∈ wordVariationsOf stem? cw := by
  unfold finalSet
  simp only [Finset.mem_union, List.mem_toFinset]
  tauto

lemma mem_generate_iff {stem? : Option (String → String)} {seeds : List String}
    {o : Options} {c : String} :
    c ∈ generate_wordlist stem? seeds o ↔
      c ∈ addSuffixes (maxLenOf o) (finalSet stem? (_clean_seeds seeds).1 (_clean_seeds seeds).2)
        ∧ (3 ≤ c.length ∧ (c.length : Int) ≤ maxLenOf o ∧ pyIsspace c = false) := by
  simp only [generate_wordlist]
  rw [Finset.mem_sort, Finset.mem_filter]

/-! ### Lemmas about `_clean_seeds` -/

lemma cleanedToken_alphanum (seed : String) :
    (cleanedToken seed).data.all (fun c => c.isAlphanum) = true := by
  unfold cleanedToken
  rw [string_data_mk, List.all_eq_true]
  intro c hc
  exact (List.mem_filter.mp hc).2

lemma cleanedToken_empty_of_strip {seed : String} (h : pyStrip seed = "") :
    cleanedToken seed = "" := by
  unfold cleanedToken
  rw [h]
  rfl

lemma pyLower_eq_self_of_digits {s : String} (h : pyIsdigit s = true) : pyLower s = s := by
  simp only [pyIsdigit, Bool.and_eq_true, List.all_eq_true] at h
  apply String.ext
  unfold pyLower
  rw [string_data_mk]
  have : s.data.map Char.toLower = s.data.map id :=
    List.map_congr_left (fun c hc => char_digit_toLower (h.2 c hc))
  rw [this, List.map_id]

lemma mem_clean_seeds_words {seeds : List String} {seed : String} (hmem : seed ∈ seeds)
    (hne : cleanedToken seed ≠ "") (hdig : pyIsdigit (cleanedToken seed) = false) :
    cleanedToken seed ∈ (_clean_seeds seeds).1 := by
  induction seeds with
  | nil => cases hmem
  | cons a rest ih =>
    rcases List.mem_cons.mp hmem with rfl | hmem'
    · have hstrip : ¬(pyStrip seed = "") := fun hh => hne (cleanedToken_empty_of_strip hh)
      simp only [_clean_seeds, if_neg hstrip, if_neg hne, hdig, Bool.false_eq_true, if_false]
      exact List.mem_cons_self _ _
    · have hr := ih hmem'
      by_cases h1 : pyStrip a = ""
      · simpa only [_clean_seeds, if_pos h1] using hr
      · by_cases h2 : cleanedToken a = ""
        · simpa only [_clean_seeds, if_neg h1, if_pos h2] using hr
        · by_cases h3 : pyIsdigit (cleanedToken a) = true
          · simpa only [_clean_seeds, if_neg h1, if_neg h2, if_pos h3] using hr
          · simp only [_clean_seeds, if_neg h1, if_neg h2, if_neg h3]
            exact List.mem_cons_of_mem _ hr

lemma mem_clean_seeds_numbers {seeds : List String} {seed : String} (hmem : seed ∈ seeds)
    (hne : cleanedToken seed ≠ "") (hdig : pyIsdigit (cleanedToken seed) = true) :
    cleanedToken seed ∈ (_clean_seeds seeds).2 := by
  induction seeds with
  | nil => cases hmem
  | cons a rest ih =>
    rcases List.mem_cons.mp hmem with rfl | hmem'
    · have hstrip : ¬(pyStrip seed = "") := fun hh => hne (cleanedToken_empty_of_strip hh)
      simp only [_clean_seeds, if_neg hstrip, if_neg hne, if_pos hdig]
      exact List.mem_cons_self _ _
    · have hr := ih hmem'
      by_cases h1 : pyStrip a = ""
      · simpa only [_clean_seeds, if_pos h1] using hr
      · by_cases h2 : cleanedToken a = ""
        · simpa only [_clean_seeds, if_neg h1, if_pos h2] using hr
        · by_cases h3 : pyIsdigit (cleanedToken a) = true
          · simp only [_clean_seeds, if_neg h1, if_neg h2, if_pos h3]
            exact List.mem_cons_of_mem _ hr
          · simpa only [_clean_seeds, if_neg h1, if_neg h2, if_neg h3] using hr

lemma clean_seeds_tokens_alphanum {seeds : List String} :
    ∀ t, t ∈ (_clean_seeds seeds).1 ∨ t ∈ (_clean_seeds seeds).2 →
      t.data.all (fun c => c.isAlphanum) = true := by
  induction seeds with
  | nil =>
    intro t ht
    simp [_clean_seeds] at ht
  | cons a rest ih =>
    intro t ht
    by_cases h1 : pyStrip a = ""
    · exact ih t (by simpa only [_clean_seeds, if_pos h1] using ht)
    · by_cases h2 : cleanedToken a = ""
      · exact ih t (by simpa only [_clean_seeds, if_neg h1, if_pos h2] using ht)
      · by_cases h3 : pyIsdigit (cleanedToken a) = true
        · simp only [_clean_seeds, if_neg h1, if_neg h2, if_pos h3] at ht
          rcases ht with ht | ht
          · exact ih t (Or.inl ht)
          · rcases List.mem_cons.mp ht with rfl | ht'
            · exact cleanedToken_alphanum a
            · exact ih t (Or.inr ht')
        · simp only [_clean_seeds, if_neg h1, if_neg h2, if_neg h3] at ht
          rcases ht with ht | ht
          · rcases List.mem_cons.mp ht with rfl | ht'
            · exact cleanedToken_alphanum a
            · exact ih t (Or.inl ht')
          · exact ih t (Or.inr ht)

lemma maxLen_eq_specLen {o : Options} (h : (3 : Int) ≤ specLenOf o) :
    maxLenOf o = specLenOf o := by
  cases hl : o.length with
  | none => simp [maxLenOf, specLenOf, hl]
  | some v =>
    have h' : (3 : Int) ≤ v := by simpa [specLenOf, hl] using h
    simp only [maxLenOf, specLenOf, hl, Option.getD_some]
    rw [if_neg (by omega : ¬v = 0)]

/-! ### Character-set preservation through the stages -/

lemma good_symbols : ∀ s ∈ symbols, goodStr s = true := by decide

lemma good_suffixes : ∀ s ∈ common_suffixes, goodStr s = true := by decide

lemma good_variantsList {stem? : Option (String → String)} {w x : String}
    (hstem : ∀ f, stem? = some f → ∀ v, goodStr (f v) = true)
    (hw : goodStr w = true) (hx : x ∈ variantsList stem? w) : goodStr x = true := by
  obtain ⟨base, hbase, hx⟩ := mem_variantsList.mp hx
  have hbg : goodStr base = true := mem_stem_word_good hstem hw hbase
  rcases hx with hx | rfl | rfl | rfl
  · exact apply_leet_good hbg hx
  · exact goodStr_pyLower hbg
  · exact goodStr_pyCapitalize hbg
  · exact goodStr_pyUpper hbg

lemma good_wordVariations {stem? : Option (String → String)} {cw : List String} {x : String}
    (hstem : ∀ f, stem? = some f → ∀ v, goodStr (f v) = true)
    (hcw : ∀ t ∈ cw, goodStr t = true) (hx : x ∈ wordVariationsOf stem? cw) :
    goodStr x = true := by
  obtain ⟨w, hw, hx⟩ := mem_wordVariationsOf.mp hx
  exact good_variantsList hstem (hcw w hw) hx

lemma good_patternsFor {w : String} {years : List String} {x : String}
    (hw : goodStr w = true) (hys : ∀ y ∈ years, goodStr y = true)
    (hx : x ∈ patternsFor w years) : goodStr x = true := by
  have hund : goodStr ("_") = true := by decide
  simp only [patternsFor, Finset.mem_insert, Finset.mem_union, List.mem_toFinset,
    List.mem_flatMap, List.mem_filter, List.mem_append] at hx
  rcases hx with rfl | ⟨y, hy, heq⟩ | ⟨s, hs, heq⟩
  · exact hw
  · have hyg : goodStr y = true := hys y hy.1
    simp only [List.mem_cons, List.not_mem_nil, or_false] at heq
    rcases heq with rfl | rfl | rfl
    · simp [goodStr_append, hw, hyg]
    · simp [goodStr_append, hw, hyg, hund]
    · simp [goodStr_append, hw, hyg]
  · have hsg : goodStr s = true := good_symbols s hs
    rcases heq with heq | heq
    · simp only [List.mem_cons, List.not_mem_nil, or_false] at heq
      rcases heq with rfl | rfl | rfl
      · simp [goodStr_append, hw, hsg]
      · simp [goodStr_append, hw, hsg]
      · simp [goodStr_append, hw, hsg]
    · cases hnil : years.isEmpty with
      | false =>
        rw [hnil, if_neg (by simp)] at heq
        obtain ⟨y, hy, heq⟩ := List.mem_flatMap.mp heq
        have hyg : goodStr y = true := hys y hy
        simp only [List.mem_cons, List.not_mem_nil, or_false] at heq
        rcases heq with rfl | rfl
        · simp [goodStr_append, hw, hsg, hyg]
        · simp [goodStr_append, hw, hsg, hyg]
      | true =>
        rw [hnil, if_pos rfl] at heq
        cases heq

lemma good_finalSet {stem? : Option (String → String)} {cw cn : List String} {x : String}
    (hstem : ∀ f, stem? = some f → ∀ v, goodStr (f v) = true)
    (hcw : ∀ t ∈ cw, goodStr t = true) (hcn : ∀ t ∈ cn, goodStr t = true)
    (hx : x ∈ finalSet stem? cw cn) : goodStr x = true := by
  rcases mem_finalSet.mp hx with hx | hx | hx | hx
  · obtain ⟨w, hw, num, hnum, hor⟩ := mem_pairCombos.mp hx
    have hwg := good_wordVariations hstem hcw hw
    have hng := hcn num hnum
    rcases hor with rfl | rfl
    · simp [goodStr_append, hwg, hng]
    · simp [goodStr_append, hwg, hng]
  · obtain ⟨w, hw, _, hx⟩ := mem_apply_patterns.mp hx
    exact good_patternsFor (good_wordVariations hstem hcw hw) hcn hx
  · exact hcn x hx
  · exact good_wordVariations hstem hcw hx

lemma good_addSuffixes {m : Int} {fin : Finset String} {x : String}
    (hfin : ∀ t ∈ fin, goodStr t = true) (hx : x ∈ addSuffixes m fin) :
    goodStr x = true := by
  rcases mem_addSuffixes.mp hx with hx | ⟨w, hw, suf, hsuf, rfl, _⟩
  · exact hfin x hx
  · simp [goodStr_append, hfin w hw, good_suffixes suf hsuf]

lemma good_generate {stem? : Option (String → String)} {seeds : List String} {o : Options}
    {c : String} (hstem : ∀ f, stem? = some f → ∀ v, goodStr (f v) = true)
    (hc : c ∈ generate_wordlist stem? seeds o) : goodStr c = true := by
  have hmem := (mem_generate_iff.mp hc).1
  refine good_addSuffixes (fun t ht => ?_) hmem
  refine good_finalSet hstem (fun t ht' => ?_) (fun t ht' => ?_) ht
  · exact goodStr_of_alphanum (clean_seeds_tokens_alphanum t (Or.inl ht'))
  · exact goodStr_of_alphanum (clean_seeds_tokens_alphanum t (Or.inr ht'))

/-! ### Claim theorems -/

/-- Claim C1 (amended): every string returned by `generate_wordlist` has
length at least 3 and at most the effective maximum length `maxLenOf options`
(the supplied `length` when it is nonzero, and the default 12 when `length`
is absent or 0, because `int(options.get("length", 12) or 12)` treats 0 as
falsy). -/
theorem claim_C1_length_bounds (stem? : Option (String → String)) (seeds : List String)
    (o : Options) (c : String) (hc : c ∈ generate_wordlist stem? seeds o) :
    3 ≤ c.length ∧ (c.length : Int) ≤ maxLenOf o :=
  ⟨(mem_generate_iff.mp hc).2.1, (mem_generate_iff.mp hc).2.2.1⟩

/-- Witness for the amended theorem of Claim C1 at a concrete input. -/
theorem claim_C1_length_bounds_witness :
    (("123") ∈ generate_wordlist none ["123"] ⟨none, none⟩) ∧
      3 ≤ ("123").length ∧ ((("123").length : Int) ≤ maxLenOf ⟨none, none⟩) := by
  have hmem : ("123") ∈ generate_wordlist none ["123"] (⟨none, none⟩ : Options) := by
    rw [mem_generate_iff]
    decide
  exact ⟨hmem, claim_C1_length_bounds none ["123"] ⟨none, none⟩ ("123") hmem⟩

/-- Claim C1 as literally stated is false: with a supplied `length` of 0 the
output is not bounded by `options.length`, because the engine replaces the
falsy 0 by the default 12.  The candidate `"123"` is returned and has length
3 > 0. -/
theorem claim_C1_counterexample :
    (("123") ∈ generate_wordlist none ["123"] ⟨some 0, none⟩) ∧
      ¬((("123").length : Int) ≤ specLenOf ⟨some 0, none⟩) := by
  constructor
  · rw [mem_generate_iff]
    decide
  · decide

/-- Claim C2: the output of `generate_wordlist` is strictly ascending
lexicographically, hence duplicate-free. -/
theorem claim_C2_sorted_nodup (stem? : Option (String → String)) (seeds : List String)
    (o : Options) :
    (generate_wordlist stem? seeds o).Sorted (fun a b => a < b) ∧
      (generate_wordlist stem? seeds o).Nodup := by
  unfold generate_wordlist
  exact ⟨Finset.sort_sorted_lt _, Finset.sort_nodup _ _⟩

/-- Claim C3: every seed surviving normalization whose lowercase cleaned form
has length between 3 and `options.length` (the supplied value, default 12)
appears, lowercased, in the output of `generate_wordlist`. -/
theorem claim_C3_baseline_survival (stem? : Option (String → String)) (seeds : List String)
    (o : Options) (seed : String) (hseed : seed ∈ seeds) (hne : cleanedToken seed ≠ "")
    (hlen3 : 3 ≤ (pyLower (cleanedToken seed)).length)
    (hlenU : ((pyLower (cleanedToken seed)).length : Int) ≤ specLenOf o) :
    pyLower (cleanedToken seed) ∈ generate_wordlist stem? seeds o := by
  have hgood : goodStr (cleanedToken seed) = true :=
    goodStr_of_alphanum (cleanedToken_alphanum seed)
  have hspec3 : (3 : Int) ≤ specLenOf o := le_trans (by exact_mod_cast hlen3) hlenU
  have hmax : maxLenOf o = specLenOf o := maxLen_eq_specLen hspec3
  rw [mem_generate_iff]
  refine ⟨?_, hlen3, by rw [hmax]; exact hlenU,
    pyIsspace_eq_false_of_good (goodStr_pyLower hgood)⟩
  rw [mem_addSuffixes]
  refine Or.inl ?_
  rw [mem_finalSet]
  by_cases hdig : pyIsdigit (cleanedToken seed) = true
  · rw [pyLower_eq_self_of_digits hdig]
    exact Or.inr (Or.inr (Or.inl (mem_clean_seeds_numbers hseed hne hdig)))
  · have hw : cleanedToken seed ∈ (_clean_seeds seeds).1 :=
      mem_clean_seeds_words hseed hne (by simpa using hdig)
    refine Or.inr (Or.inr (Or.inr ?_))
    rw [mem_wordVariationsOf]
    refine ⟨cleanedToken seed, hw, ?_⟩
    rw [mem_variantsList]
    exact ⟨cleanedToken seed, word_mem_stem_word stem? (cleanedToken seed),
      Or.inr (Or.inl rfl)⟩

/-- Witness for Claim C3 at a concrete input. -/
theorem claim_C3_baseline_survival_witness :
    ((" Alice! ") ∈ ([" Alice! "] : List String) ∧ cleanedToken (" Alice! ") ≠ "" ∧
        3 ≤ (pyLower (cleanedToken (" Alice! "))).length ∧
        ((pyLower (cleanedToken (" Alice! "))).length : Int) ≤ specLenOf ⟨none, none⟩) ∧
      pyLower (cleanedToken (" Alice! ")) ∈ generate_wordlist none [" Alice! "] ⟨none, none⟩ :=
  ⟨⟨by decide, by decide, by decide, by decide⟩,
    claim_C3_baseline_survival none [" Alice! "] ⟨none, none⟩ (" Alice! ")
      (by decide) (by decide) (by decide) (by decide)⟩

/-- Claim C4 as literally stated is false: with a supplied `length` of 0 the
output is not empty, because `int(options.get("length", 12) or 12)` replaces
the falsy 0 by the default 12. -/
theorem claim_C4_counterexample :
    generate_wordlist none ["123"] ⟨some 0, none⟩ ≠ [] := by
  intro h
  have hmem : ("123") ∈ generate_wordlist none ["123"] (⟨some 0, none⟩ : Options) := by
    rw [mem_generate_iff]
    decide
  rw [h] at hmem
  cases hmem

/-- Claim C4 (amended): for every supplied `length` value that is less than 3
and nonzero, `generate_wordlist` returns the empty sequence (a supplied 0 is
falsy in Python and is replaced by the default 12). -/
theorem claim_C4_small_length_empty (stem? : Option (String → String)) (seeds : List String)
    (o : Options) (L : Int) (hL : o.length = some L) (h3 : L < 3) (h0 : L ≠ 0) :
    generate_wordlist stem? seeds o = [] := by
  have hmax : maxLenOf o = L := by simp [maxLenOf, hL, h0]
  have hempty : ((addSuffixes (maxLenOf o)
      (finalSet stem? (_clean_seeds seeds).1 (_clean_seeds seeds).2)).filter
      (fun w => 3 ≤ w.length ∧ (w.length : Int) ≤ maxLenOf o ∧ pyIsspace w = false)) = ∅ := by
    rw [Finset.filter_eq_empty_iff]
    intro w _
    rw [hmax]
    rintro ⟨hw3, hwle, _⟩
    omega
  simp only [generate_wordlist]
  rw [hempty, Finset.sort_empty]

/-- Witness for the amended theorem of Claim C4 at a concrete input. -/
theorem claim_C4_small_length_empty_witness :
    ((⟨some 2, none⟩ : Options).length = some 2 ∧ (2 : Int) < 3 ∧ (2 : Int) ≠ 0) ∧
      generate_wordlist none ["alice"] ⟨some 2, none⟩ = [] :=
  ⟨⟨rfl, by decide, by decide⟩,
    claim_C4_small_length_empty none ["alice"] ⟨some 2, none⟩ 2 rfl (by decide) (by decide)⟩

/-- Claim C6: for a non-empty word, the number of distinct leet variants is
the product over the characters of the lowercased word of the substitution
option-list lengths (3 for a, 2 for e, 3 for i, 2 for o, 3 for s, 2 for t,
1 otherwise). -/
theorem claim_C6_leet_count (word : String) (h : word ≠ "") :
    (apply_leet word).length = ((pyLower word).data.map leetFactor).prod := by
  rw [apply_leet_count h]
  exact congrArg List.prod (List.map_congr_left (fun c _ => leetOptions_factor c))

/-- Witness for Claim C6 at a concrete input. -/
theorem claim_C6_leet_count_witness :
    (("Star") ≠ "") ∧
      (apply_leet ("Star")).length = ((pyLower ("Star")).data.map leetFactor).prod :=
  ⟨by decide, claim_C6_leet_count ("Star") (by decide)⟩

/-- Claim C7: a cleaned non-empty token is classified as a number token iff
every character is a digit, and otherwise is kept whole as a single word
token (mixed tokens are never split). -/
theorem claim_C7_classification (raw : String) (h : cleanedToken raw ≠ "") :
    _clean_seeds [raw] =
      if (cleanedToken raw).data.all (fun c => c.isDigit) = true
      then ([], [cleanedToken raw]) else ([cleanedToken raw], []) := by
  have hstrip : ¬(pyStrip raw = "") := fun hh => h (cleanedToken_empty_of_strip hh)
  have hdata : (cleanedToken raw).data ≠ [] := by
    intro hd
    exact h (String.ext (by rw [hd]))
  have hdig_iff : pyIsdigit (cleanedToken raw) =
      (cleanedToken raw).data.all (fun c => c.isDigit) := by
    unfold pyIsdigit
    cases hd : (cleanedToken raw).data with
    | nil => exact absurd hd hdata
    | cons c cs => simp [hd]
  simp only [_clean_seeds, if_neg hstrip, if_neg h, hdig_iff]

/-- Witness for Claim C7 at a concrete input. -/
theorem claim_C7_classification_witness :
    (cleanedToken (" a1! ") ≠ "") ∧
      _clean_seeds [" a1! "] =
        (if (cleanedToken (" a1! ")).data.all (fun c => c.isDigit) = true
         then ([], [cleanedToken (" a1! ")]) else ([cleanedToken (" a1! ")], [])) :=
  ⟨by decide, claim_C7_classification (" a1! ") (by decide)⟩

/-- Claim C8: when every seed is discarded by normalization (empty after
stripping whitespace, or empty after removing non-alphanumerics, which also
covers an empty seeds list), `generate_wordlist` returns the empty sequence. -/
theorem claim_C8_empty_seeds (stem? : Option (String → String)) (seeds : List String)
    (o : Options) (h : ∀ s ∈ seeds, pyStrip s = "" ∨ cleanedToken s = "") :
    generate_wordlist stem? seeds o = [] := by
  have hcs : _clean_seeds seeds = ([], []) := by
    induction seeds with
    | nil => rfl
    | cons a rest ih =>
      have hr := ih (fun s hs => h s (List.mem_cons_of_mem a hs))
      rcases h a (List.mem_cons_self a rest) with ha | ha
      · simp only [_clean_seeds, if_pos ha, hr]
      · by_cases h1 : pyStrip a = ""
        · simp only [_clean_seeds, if_pos h1, hr]
        · simp only [_clean_seeds, if_neg h1, if_pos ha, hr]
  simp only [generate_wordlist, hcs]
  simp [finalSet, wordVariationsOf, pairCombos, apply_patterns, addSuffixes,
    Finset.sort_empty]

/-- Witness for Claim C8 at a concrete input. -/
theorem claim_C8_empty_seeds_witness :
    (∀ s ∈ (["  ", "$%&"] : List String), pyStrip s = "" ∨ cleanedToken s = "") ∧
      generate_wordlist none ["  ", "$%&"] ⟨none, none⟩ = [] :=
  ⟨by decide, claim_C8_empty_seeds none ["  ", "$%&"] ⟨none, none⟩ (by decide)⟩

/-- Claim C9: `generate_wordlist` is a pure function of its arguments, so two
invocations with identical arguments return identical output sequences. -/
theorem claim_C9_deterministic (stem? : Option (String → String)) (seeds : List String)
    (o : Options) :
    generate_wordlist stem? seeds o = generate_wordlist stem? seeds o := rfl

/-- Claim C10: every string returned by `generate_wordlist` consists only of
ASCII letters, ASCII digits, and the six decoration symbols, and in
particular contains no whitespace character.  The hypothesis on the optional
stemmer says its output stays in that character set, which holds for the
Porter stemmer (letters in, letters out). -/
theorem claim_C10_charset (stem? : Option (String → String)) (seeds : List String)
    (o : Options) (c : String)
    (hstem : ∀ f, stem? = some f → ∀ v, goodStr (f v) = true)
    (hc : c ∈ generate_wordlist stem? seeds o) :
    goodStr c = true ∧ (∀ ch ∈ c.data, ch.isWhitespace = false) := by
  have hg := good_generate hstem hc
  refine ⟨hg, fun ch hch => ?_⟩
  have hgc : goodChar ch = true := by
    have hall : c.data.all goodChar = true := hg
    exact List.all_eq_true.mp hall ch hch
  exact char_good_not_ws hgc

/-- Witness for Claim C10 at a concrete input. -/
theorem claim_C10_charset_witness :
    ((∀ f, (none : Option (String → String)) = some f → ∀ v, goodStr (f v) = true) ∧
        (("123") ∈ generate_wordlist none ["123"] ⟨none, none⟩)) ∧
      goodStr ("123") = true ∧ (∀ ch ∈ ("123").data, ch.isWhitespace = false) := by
  have h1 : ∀ f, (none : Option (String → String)) = some f → ∀ v, goodStr (f v) = true :=
    fun f h => nomatch h
  have h2 : ("123") ∈ generate_wordlist none ["123"] (⟨none, none⟩ : Options) := by
    rw [mem_generate_iff]
    decide
  exact ⟨⟨h1, h2⟩, claim_C10_charset none ["123"] ⟨none, none⟩ ("123") h1 h2⟩

/-! ### Claim C5: `apply_patterns` against the spec description -/

lemma patternsFor_eq_spec {w : String} {years : List String} (hy : ∀ y ∈ years, y ≠ "") :
    patternsFor w years =
      insert w
        (((years.toFinset.biUnion (fun n => {w ++ n, w ++ "_" ++ n, n ++ w}))
          ∪ (symbols.toFinset.biUnion (fun s => {w ++ s, s ++ w, w ++ s ++ s})))
          ∪ (if years = [] then ∅
              else symbols.toFinset.biUnion (fun s =>
                years.toFinset.biUnion (fun n => {w ++ s ++ n, s ++ w ++ n})))) := by
  have hfy : years.filter (fun y => y ≠ "") = years :=
    List.filter_eq_self.mpr (fun y hyy => by simpa using hy y hyy)
  ext x
  by_cases hnil : years = []
  · subst hnil
    simp only [patternsFor, hfy, Finset.mem_insert, Finset.mem_union, List.mem_toFinset,
      List.mem_flatMap, List.mem_append, List.mem_cons, List.not_mem_nil, or_false,
      false_and, exists_false, Finset.mem_biUnion, String.append_assoc, List.isEmpty_nil,
      if_true, Finset.not_mem_empty, List.toFinset_nil, Finset.mem_singleton,
      Finset.mem_insert]
  · have hne : years.isEmpty = false := by
      cases years with
      | nil => exact absurd rfl hnil
      | cons a l => rfl
    simp only [patternsFor, hfy, Finset.mem_insert, Finset.mem_union, List.mem_toFinset,
      List.mem_flatMap, List.mem_append, List.mem_cons, List.not_mem_nil, or_false,
      Finset.mem_biUnion, String.append_assoc, hne, Bool.false_eq_true, if_false,
      if_neg hnil, Finset.mem_singleton, Finset.mem_insert]
    constructor
    · rintro (rfl | ⟨y, hy, hcase⟩ | ⟨s, hs, (h3 | ⟨y, hy, h2⟩)⟩)
      · exact Or.inl rfl
      · exact Or.inr (Or.inl (Or.inl ⟨y, hy, hcase⟩))
      · exact Or.inr (Or.inl (Or.inr ⟨s, hs, h3⟩))
      · exact Or.inr (Or.inr ⟨s, hs, y, hy, h2⟩)
    · rintro (rfl | (⟨y, hy, hcase⟩ | ⟨s, hs, h3⟩) | ⟨s, hs, y, hy, h2⟩)
      · exact Or.inl rfl
      · exact Or.inr (Or.inl ⟨y, hy, hcase⟩)
      · exact Or.inr (Or.inr ⟨s, hs, Or.inl h3⟩)
      · exact Or.inr (Or.inr ⟨s, hs, Or.inr ⟨y, hy, h2⟩⟩)

/-- Claim C5: for non-empty variants and non-empty year strings,
`apply_patterns` returns exactly the union described by the spec, and in
particular every input variant survives unmodified. -/
theorem claim_C5_apply_patterns (words years : List String)
    (hw : ∀ w ∈ words, w ≠ "") (hy : ∀ y ∈ years, y ≠ "") :
    apply_patterns words years = specPatterns words years ∧
      ∀ v ∈ words, v ∈ apply_patterns words years := by
  have heq : apply_patterns words years = specPatterns words years := by
    unfold specPatterns
    ext x
    rw [mem_apply_patterns, Finset.mem_biUnion]
    constructor
    · rintro ⟨w, hww, _, hx⟩
      refine ⟨w, List.mem_toFinset.mpr hww, ?_⟩
      rw [← patternsFor_eq_spec hy]
      exact hx
    · rintro ⟨w, hww, hx⟩
      refine ⟨w, List.mem_toFinset.mp hww, hw w (List.mem_toFinset.mp hww), ?_⟩
      rw [patternsFor_eq_spec hy]
      exact hx
  refine ⟨heq, fun v hv => ?_⟩
  rw [heq]
  unfold specPatterns
  rw [Finset.mem_biUnion]
  exact ⟨v, List.mem_toFinset.mpr hv, Finset.mem_insert_self v _⟩

/-- Witness for Claim C5 at a concrete input. -/
theorem claim_C5_apply_patterns_witness :
    ((∀ w ∈ (["ab"] : List String), w ≠ "") ∧ (∀ y ∈ (["9"] : List String), y ≠ "")) ∧
      (apply_patterns ["ab"] ["9"] = specPatterns ["ab"] ["9"] ∧
        ∀ v ∈ (["ab"] : List String), v ∈ apply_patterns ["ab"] ["9"]) :=
  ⟨⟨by decide, by decide⟩, claim_C5_apply_patterns ["ab"] ["9"] (by decide) (by decide)⟩

end PwGen
